import Mathlib

/-!
Shallow embedding of the `hyperbitbit` crate (`src/lib.rs`) and proofs about it.

Machine integers are modelled as `Nat` with explicit `% 2 ^ w` where overflow
matters.  The struct `HyperBitBit { lgn: u8, sketch1: u64, sketch2: u64 }`
becomes a Lean structure over `Nat`.  The hash collaborator
(`std::collections::hash_map::DefaultHasher`) is external to the crate: the
spec only requires a deterministic 64-bit hash over the input string, so the
embedding takes the hash function as an explicit parameter `f : String → Nat`
together with the range condition `∀ v, f v < 2 ^ 64`.
-/

/-- The state of the sketch, mirroring the Rust struct field for field:
`lgn : u8`, `sketch1 : u64`, `sketch2 : u64` (all as `Nat`, with the `u8`
wraparound made explicit at the one place the code increments `lgn`). -/
structure HyperBitBit where
  lgn : Nat
  sketch1 : Nat
  sketch2 : Nat
deriving DecidableEq, Repr

namespace HyperBitBit

/-- `Default::default()` / `HyperBitBit::new()`: `{ lgn: 5, sketch1: 0, sketch2: 0 }`. -/
def new : HyperBitBit := { lgn := 5, sketch1 := 0, sketch2 := 0 }

/-- Number of binary digits of `x`, with explicit fuel so that the kernel can
evaluate it; `bitLenAux f x` is the bit length of `x` whenever `x < 2 ^ f`. -/
def bitLenAux : Nat → Nat → Nat
  | 0, _ => 0
  | f + 1, x => if x = 0 then 0 else bitLenAux f (x / 2) + 1

/-- Rust `u64::leading_zeros`: the number of leading zero bits of a 64-bit
word, i.e. `64` minus the bit length of the value. -/
def leadingZeros64 (x : Nat) : Nat := 64 - bitLenAux 64 x

/-- Rust `u64::count_ones` (population count of a 64-bit word), again with
explicit fuel `64` so that it is kernel-computable. -/
def popCountAux : Nat → Nat → Nat
  | 0, _ => 0
  | f + 1, x => if x = 0 then 0 else x % 2 + popCountAux f (x / 2)

/-- Population count of a `u64` value. -/
def popCount64 (x : Nat) : Nat := popCountAux 64 x

/-- `let k: u64 = (hash_val << 58) >> 58;` — `u64` shifts, so the left shift
is taken modulo `2 ^ 64`. -/
def kOf (h : Nat) : Nat := ((h <<< 58) % 2 ^ 64) >>> 58

/-- `let r: u64 = ((hash_val >> 6).leading_zeros() - 6).into();` -/
def rOf (h : Nat) : Nat := leadingZeros64 (h >>> 6) - 6

/-- The two conditional bit-setting statements of `insert`:
`if r > self.lgn { self.sketch1 |= 1_u64 << k }` and
`if r > (self.lgn + 1).into() { self.sketch2 |= 1_u64 << k }`.
The `self.lgn + 1` inside the second condition is a `u8` addition, hence the
`% 256`. -/
def setBits (h : Nat) (s : HyperBitBit) : HyperBitBit :=
  { s with
    sketch1 := if s.lgn < rOf h then s.sketch1 ||| (1 <<< kOf h) else s.sketch1
    sketch2 := if (s.lgn + 1) % 256 < rOf h then s.sketch2 ||| (1 <<< kOf h) else s.sketch2 }

/-- The final conditional of `insert`:
`if self.sketch1.count_ones() > 31 { self.sketch1 = self.sketch2;
self.sketch2 = 0; self.lgn += 1; }`; `self.lgn += 1` is a `u8` addition. -/
def rescale (s : HyperBitBit) : HyperBitBit :=
  if 31 < popCount64 s.sketch1 then
    { lgn := (s.lgn + 1) % 256, sketch1 := s.sketch2, sketch2 := 0 }
  else s

/-- `HyperBitBit::insert`, as a function of the 64-bit hash value of the
inserted string: derive `k` and `r`, conditionally set the two bits, then
rescale if the population count of `sketch1` exceeds 31. -/
def insert (h : Nat) (s : HyperBitBit) : HyperBitBit := rescale (setBits h s)

/-- A hash collaborator is admissible when it returns 64-bit values; the crate
uses `DefaultHasher`, which the spec only constrains to be a deterministic
64-bit hash over the input string. -/
def Admissible (f : String → Nat) : Prop := ∀ v : String, f v < 2 ^ 64

/-- `insert` taking the string argument, for an explicit hash collaborator. -/
def insertStr (f : String → Nat) (v : String) (s : HyperBitBit) : HyperBitBit :=
  insert (f v) s

/-- Run a sequence of inserts (given by their hash values) from a state. -/
def reachFrom (s : HyperBitBit) : List Nat → HyperBitBit
  | [] => s
  | h :: t => reachFrom (insert h s) t

/-- The state obtained from a fresh sketch by inserting the given strings in
order, under the hash collaborator `f`. -/
def reachStr (f : String → Nat) (l : List String) : HyperBitBit :=
  reachFrom new (l.map f)

/-- A state is reachable when some sequence of inserts of 64-bit hash values
produces it from a fresh sketch. -/
def Reachable (s : HyperBitBit) : Prop :=
  ∃ hs : List Nat, (∀ h ∈ hs, h < 2 ^ 64) ∧ reachFrom new hs = s

/-- Debug-build semantics of `insert`: every operation in the Rust function
that can trap in a debug build is guarded — the `u32` subtraction
`leading_zeros() - 6` (underflow), the shift `1_u64 << k` (out of range for
`k ≥ 64`), and the `u8` addition `self.lgn + 1` (overflow past 255) — and the
function returns `none` exactly where the code would panic. -/
def insertChecked (h : Nat) (s : HyperBitBit) : Option HyperBitBit :=
  if leadingZeros64 (h >>> 6) < 6 then none
  else if 64 ≤ kOf h then none
  else if 255 < s.lgn + 1 then none
  else if 31 < popCount64 (if s.lgn < rOf h then s.sketch1 ||| (1 <<< kOf h) else s.sketch1) then
    some { lgn := s.lgn + 1
           sketch1 := if s.lgn + 1 < rOf h then s.sketch2 ||| (1 <<< kOf h) else s.sketch2
           sketch2 := 0 }
  else
    some { lgn := s.lgn
           sketch1 := if s.lgn < rOf h then s.sketch1 ||| (1 <<< kOf h) else s.sketch1
           sketch2 := if s.lgn + 1 < rOf h then s.sketch2 ||| (1 <<< kOf h) else s.sketch2 }

/-- The inductive invariant of reachable states: `lgn` stays at most 58, the
bits of `sketch2` form a subset of those of `sketch1`, the population count of
`sketch1` stays at most 32 (with `sketch2` empty in the extremal case), and at
the top scales nothing can be recorded any more. -/
def Inv (s : HyperBitBit) : Prop :=
  s.lgn ≤ 58 ∧
  s.sketch2 ||| s.sketch1 = s.sketch1 ∧
  popCount64 s.sketch1 ≤ 32 ∧
  (popCount64 s.sketch1 = 32 → s.sketch2 = 0) ∧
  (57 ≤ s.lgn → s.sketch2 = 0) ∧
  (58 ≤ s.lgn → s.sketch1 = 0)

/-- The floating-point part of `HyperBitBit::cardinality`:
`let exponent: f64 = self.lgn as f64 + 5.4 + (self.sketch1.count_ones() as f64) / 32.0;`
followed by `f64::powf(2.0, exponent)`, with the `f64` arithmetic idealised as
exact real arithmetic. -/
noncomputable def cardFloor (s : HyperBitBit) : Nat :=
  ⌊(2 : ℝ) ^ ((s.lgn : ℝ) + 5.4 + (popCount64 s.sketch1 : ℝ) / 32)⌋₊

/-- `HyperBitBit::cardinality`: the power, cast to `u64`.  A Rust
float-to-integer `as` cast truncates toward zero and saturates at the bounds
of the target type; the value here is always positive, so only the upper
saturation point is relevant. -/
noncomputable def cardinality (s : HyperBitBit) : Nat :=
  min (cardFloor s) (2 ^ 64 - 1)

/-- The exponent of `cardinality`, scaled by 160 to clear denominators:
`lgn + 5.4 + popcount/32 = (160*lgn + 864 + 5*popcount) / 160`. -/
def expNum (s : HyperBitBit) : Nat :=
  160 * s.lgn + 864 + 5 * popCount64 s.sketch1

/-- The string of `n` letters `a`; used to build concrete insertion
sequences of pairwise distinct strings. -/
def aStr (n : Nat) : String := String.mk (List.replicate n 'a')

/-- A concrete admissible hash collaborator mapping a string to its length
modulo 64; `aStr 0, …, aStr 31` hash to the distinct values `0, …, 31`. -/
def hashLen : String → Nat := fun v => v.length % 64

/-- A concrete admissible hash collaborator under which `"a"` hashes to `0`
(rank 58, so its insertion records a bit) and every other string hashes to
`2 ^ 63` (rank 0, so its insertion records nothing). -/
def hashAB : String → Nat := fun v => if v = "a" then 0 else 2 ^ 63

lemma ext_fields {a b : HyperBitBit} (h1 : a.lgn = b.lgn)
    (h2 : a.sketch1 = b.sketch1) (h3 : a.sketch2 = b.sketch2) : a = b := by
  cases a
  cases b
  cases h1
  cases h2
  cases h3
  rfl

lemma setBits_lgn (h : Nat) (s : HyperBitBit) : (setBits h s).lgn = s.lgn := rfl

lemma setBits_sketch1 (h : Nat) (s : HyperBitBit) :
    (setBits h s).sketch1 =
      if s.lgn < rOf h then s.sketch1 ||| (1 <<< kOf h) else s.sketch1 := rfl

lemma setBits_sketch2 (h : Nat) (s : HyperBitBit) :
    (setBits h s).sketch2 =
      if (s.lgn + 1) % 256 < rOf h then s.sketch2 ||| (1 <<< kOf h) else s.sketch2 := rfl

lemma rescale_of_le {s : HyperBitBit} (hle : popCount64 s.sketch1 ≤ 31) :
    rescale s = s := by
  unfold rescale
  rw [if_neg (by omega)]

lemma rescale_of_gt {s : HyperBitBit} (hgt : 31 < popCount64 s.sketch1) :
    rescale s = { lgn := (s.lgn + 1) % 256, sketch1 := s.sketch2, sketch2 := 0 } := by
  unfold rescale
  rw [if_pos hgt]

lemma popCountAux_eq_sum (f : Nat) :
    ∀ x, popCountAux f x = ∑ i ∈ Finset.range f, (if x.testBit i then 1 else 0) := by
  induction f with
  | zero => intro x; simp [popCountAux]
  | succ f ih =>
    intro x
    rw [Finset.sum_range_succ']
    by_cases hx : x = 0
    · subst hx
      simp [popCountAux, Nat.zero_testBit]
    · rw [popCountAux, if_neg hx, ih (x / 2)]
      have h0 : (if x.testBit 0 then (1 : Nat) else 0) = x % 2 := by
        rw [Nat.testBit_zero]
        rcases Nat.mod_two_eq_zero_or_one x with hm | hm <;> simp [hm]
      simp only [Nat.testBit_succ, h0]
      omega

lemma popCount64_eq_sum (x : Nat) :
    popCount64 x = ∑ i ∈ Finset.range 64, (if x.testBit i then 1 else 0) :=
  popCountAux_eq_sum 64 x

lemma popCount64_le_of_or_eq {x y : Nat} (h : x ||| y = y) :
    popCount64 x ≤ popCount64 y := by
  rw [popCount64_eq_sum, popCount64_eq_sum]
  refine Finset.sum_le_sum fun i _ => ?_
  have hb := congrArg (fun z => Nat.testBit z i) h
  simp only [Nat.testBit_lor] at hb
  cases hx : x.testBit i
  · simp
  · rw [hx] at hb
    simp only [Bool.true_or] at hb
    simp [← hb]

lemma popCount64_or_two_pow_le (x k : Nat) :
    popCount64 (x ||| 2 ^ k) ≤ popCount64 x + 1 := by
  rw [popCount64_eq_sum, popCount64_eq_sum]
  have hstep : ∀ i ∈ Finset.range 64,
      (if (x ||| 2 ^ k).testBit i then (1 : Nat) else 0) ≤
        (if x.testBit i then 1 else 0) + (if i = k then 1 else 0) := by
    intro i _
    rw [Nat.testBit_lor]
    by_cases hik : i = k
    · subst hik
      simp [Nat.testBit_two_pow_self]
    · rw [Nat.testBit_two_pow_of_ne (Ne.symm hik)]
      simp [hik]
  calc (∑ i ∈ Finset.range 64, if (x ||| 2 ^ k).testBit i then (1 : Nat) else 0)
      ≤ ∑ i ∈ Finset.range 64,
          ((if x.testBit i then (1 : Nat) else 0) + (if i = k then 1 else 0)) :=
        Finset.sum_le_sum hstep
    _ = (∑ i ∈ Finset.range 64, if x.testBit i then (1 : Nat) else 0) +
          ∑ i ∈ Finset.range 64, (if i = k then (1 : Nat) else 0) :=
        Finset.sum_add_distrib
    _ ≤ (∑ i ∈ Finset.range 64, if x.testBit i then (1 : Nat) else 0) + 1 := by
        have : (∑ i ∈ Finset.range 64, if i = k then (1 : Nat) else 0) ≤ 1 := by
          rw [Finset.sum_ite_eq']
          split <;> simp
        omega

lemma popCount64_zero : popCount64 0 = 0 := rfl

lemma bitLenAux_le_iff (f : Nat) :
    ∀ x k, x < 2 ^ f → (bitLenAux f x ≤ k ↔ x < 2 ^ k) := by
  induction f with
  | zero =>
    intro x k hx
    have hx0 : x = 0 := by simpa using hx
    subst hx0
    simp [bitLenAux, Nat.pos_pow_of_pos]
  | succ f ih =>
    intro x k hx
    by_cases hx0 : x = 0
    · subst hx0
      simp [bitLenAux, Nat.pos_pow_of_pos]
    · rw [bitLenAux, if_neg hx0]
      have hx2 : x / 2 < 2 ^ f := by
        rw [Nat.div_lt_iff_lt_mul (by norm_num)]
        calc x < 2 ^ (f + 1) := hx
          _ = 2 ^ f * 2 := by ring
      cases k with
      | zero =>
        constructor
        · intro hcon; omega
        · intro hcon
          have : x = 0 := by omega
          exact absurd this hx0
      | succ j =>
        rw [Nat.succ_le_succ_iff, ih (x / 2) j hx2,
          Nat.div_lt_iff_lt_mul (by norm_num), pow_succ]

lemma rOf_le (h : Nat) : rOf h ≤ 58 := by
  unfold rOf leadingZeros64
  omega

lemma shiftRight_six_lt {h : Nat} (hh : h < 2 ^ 64) : h >>> 6 < 2 ^ 58 := by
  rw [Nat.shiftRight_eq_div_pow, Nat.div_lt_iff_lt_mul (by norm_num)]
  calc h < 2 ^ 64 := hh
    _ = 2 ^ 58 * 2 ^ 6 := by norm_num

lemma six_le_leadingZeros {h : Nat} (hh : h < 2 ^ 64) :
    6 ≤ leadingZeros64 (h >>> 6) := by
  have h6 : h >>> 6 < 2 ^ 58 := shiftRight_six_lt hh
  have hlt : h >>> 6 < 2 ^ 64 := lt_of_lt_of_le h6 (by norm_num)
  have hbl : bitLenAux 64 (h >>> 6) ≤ 58 := (bitLenAux_le_iff 64 _ 58 hlt).mpr h6
  unfold leadingZeros64
  omega

lemma kOf_eq (h : Nat) : kOf h = h % 64 := by
  unfold kOf
  rw [Nat.shiftLeft_eq, Nat.shiftRight_eq_div_pow]
  have hsplit : h * 2 ^ 58 = h % 64 * 2 ^ 58 + h / 64 * 2 ^ 64 := by
    conv_lhs => rw [← Nat.div_add_mod h 64]
    ring
  have hm : h % 64 < 64 := Nat.mod_lt _ (by norm_num)
  have hlt : h % 64 * 2 ^ 58 < 2 ^ 64 := by
    calc h % 64 * 2 ^ 58 < 64 * 2 ^ 58 := by
          exact (Nat.mul_lt_mul_right (by norm_num)).mpr hm
      _ = 2 ^ 64 := by norm_num
  rw [hsplit, Nat.add_mul_mod_self_right, Nat.mod_eq_of_lt hlt,
    Nat.mul_div_cancel _ (by positivity)]

lemma or_or_self (x b : Nat) : (x ||| b) ||| b = x ||| b := by
  rw [Nat.lor_assoc, Nat.or_self]

lemma or_subset_or {x y : Nat} (b : Nat) (h : x ||| y = y) :
    (x ||| b) ||| (y ||| b) = y ||| b := by
  rw [Nat.lor_assoc, Nat.lor_comm b (y ||| b), or_or_self, ← Nat.lor_assoc, h]

lemma or_subset_right {x y : Nat} (b : Nat) (h : x ||| y = y) :
    x ||| (y ||| b) = y ||| b := by
  rw [← Nat.lor_assoc, h]

lemma inv_new : Inv new := by
  refine ⟨by norm_num [new], by norm_num [new], by norm_num [new, popCount64_zero], ?_, ?_, ?_⟩ <;>
    intro hcon <;> simp [new, popCount64_zero] at hcon ⊢

lemma inv_insert {s : HyperBitBit} {h : Nat} (_hh : h < 2 ^ 64) (hs : Inv s) :
    Inv (insert h s) := by
  obtain ⟨h58, hsub, hpc, hpc32, h57, htop⟩ := hs
  have hrle : rOf h ≤ 58 := rOf_le h
  have hmod : (s.lgn + 1) % 256 = s.lgn + 1 := Nat.mod_eq_of_lt (by omega)
  set b : Nat := 1 <<< kOf h with hbdef
  have hb : b = 2 ^ kOf h := Nat.one_shiftLeft (kOf h)
  set m : HyperBitBit := setBits h s with hmdef
  have hmlgn : m.lgn = s.lgn := rfl
  have hm1 : m.sketch1 = if s.lgn < rOf h then s.sketch1 ||| b else s.sketch1 := rfl
  have hm2 : m.sketch2 = if s.lgn + 1 < rOf h then s.sketch2 ||| b else s.sketch2 := by
    rw [hmdef, setBits_sketch2, hmod]
  -- the bits of `sketch2` stay below those of `sketch1`
  have hsub2 : m.sketch2 ||| m.sketch1 = m.sketch1 := by
    rw [hm1, hm2]
    by_cases hc2 : s.lgn + 1 < rOf h
    · rw [if_pos hc2, if_pos (by omega)]
      exact or_subset_or b hsub
    · rw [if_neg hc2]
      by_cases hc1 : s.lgn < rOf h
      · rw [if_pos hc1]
        exact or_subset_right b hsub
      · rw [if_neg hc1]
        exact hsub
  -- the population count grows by at most one
  have hpc1 : popCount64 m.sketch1 ≤ popCount64 s.sketch1 + 1 := by
    rw [hm1]
    by_cases hc1 : s.lgn < rOf h
    · rw [if_pos hc1, hb]
      exact popCount64_or_two_pow_le _ _
    · rw [if_neg hc1]
      omega
  have hpcsub : popCount64 m.sketch2 ≤ popCount64 m.sketch1 :=
    popCount64_le_of_or_eq hsub2
  -- nothing is recorded at the top scales
  have hfix1 : 58 ≤ s.lgn → m.sketch1 = s.sketch1 := by
    intro htop'
    rw [hm1, if_neg (by omega)]
  have hfix2 : 57 ≤ s.lgn → m.sketch2 = s.sketch2 := by
    intro h57'
    rw [hm2, if_neg (by omega)]
  -- an empty `sketch2` gains at most one bit
  have hone : s.sketch2 = 0 → popCount64 m.sketch2 ≤ 1 := by
    intro hz
    rw [hm2, hz]
    by_cases hc2 : s.lgn + 1 < rOf h
    · rw [if_pos hc2, hb]
      have := popCount64_or_two_pow_le 0 (kOf h)
      simpa [popCount64_zero] using this
    · rw [if_neg hc2]
      simp [popCount64_zero]
  have hins : insert h s = rescale m := rfl
  by_cases hro : 31 < popCount64 m.sketch1
  · -- rescale: `sketch1` is replaced by `sketch2`, `sketch2` cleared, `lgn` bumped
    have hlt57 : s.lgn ≤ 57 := by
      by_contra hcon
      have hs1 : m.sketch1 = s.sketch1 := hfix1 (by omega)
      have : s.sketch1 = 0 := htop (by omega)
      rw [hs1, this, popCount64_zero] at hro
      omega
    have hres : insert h s =
        { lgn := s.lgn + 1, sketch1 := m.sketch2, sketch2 := 0 } := by
      rw [hins, rescale_of_gt hro, hmlgn, hmod]
    rw [hres]
    have hpcm2 : popCount64 m.sketch2 ≤ 32 := by
      by_cases hc57 : 57 ≤ s.lgn
      · have : m.sketch2 = s.sketch2 := hfix2 hc57
        rw [this, h57 hc57, popCount64_zero]
        omega
      · by_cases hfull : popCount64 s.sketch1 = 32
        · have := hone (hpc32 hfull)
          omega
        · omega
    refine ⟨?_, ?_, ?_, fun _ => rfl, fun _ => rfl, ?_⟩
    · show s.lgn + 1 ≤ 58
      omega
    · show (0 : Nat) ||| m.sketch2 = m.sketch2
      exact Nat.zero_or _
    · show popCount64 m.sketch2 ≤ 32
      exact hpcm2
    · intro hge
      have hge' : 58 ≤ s.lgn + 1 := hge
      show m.sketch2 = 0
      have hm2' : m.sketch2 = s.sketch2 := hfix2 (by omega)
      rw [hm2', h57 (by omega)]
  · -- no rescale: the state is the intermediate state
    have hres : insert h s = m := by
      rw [hins, rescale_of_le (by omega)]
    rw [hres]
    refine ⟨by rw [hmlgn]; omega, hsub2, by omega, by omega, ?_, ?_⟩
    · intro hc57
      rw [hfix2 (by rwa [hmlgn] at hc57), h57 (by rwa [hmlgn] at hc57)]
    · intro hc58
      rw [hfix1 (by rwa [hmlgn] at hc58), htop (by rwa [hmlgn] at hc58)]

lemma inv_reachFrom {s : HyperBitBit} (hs : Inv s) :
    ∀ l : List Nat, (∀ h ∈ l, h < 2 ^ 64) → Inv (reachFrom s l) := by
  intro l
  induction l generalizing s with
  | nil => intro _; exact hs
  | cons h t ih =>
    intro hmem
    have hh : h < 2 ^ 64 := hmem h (List.mem_cons_self h t)
    exact ih (inv_insert hh hs) fun x hx => hmem x (List.mem_cons_of_mem h hx)

lemma inv_of_reachable {s : HyperBitBit} (hs : Reachable s) : Inv s := by
  obtain ⟨l, hmem, heq⟩ := hs
  rw [← heq]
  exact inv_reachFrom inv_new l hmem

lemma reachable_new : Reachable new :=
  ⟨[], fun h hmem => absurd hmem (List.not_mem_nil h), rfl⟩

lemma reachable_reachStr {f : String → Nat} (hf : Admissible f) (l : List String) :
    Reachable (reachStr f l) := by
  refine ⟨l.map f, ?_, rfl⟩
  intro h hmem
  obtain ⟨v, _, rfl⟩ := List.mem_map.mp hmem
  exact hf v

lemma exponent_eq (s : HyperBitBit) :
    (s.lgn : ℝ) + 5.4 + (popCount64 s.sketch1 : ℝ) / 32 = (expNum s : ℝ) / 160 := by
  unfold expNum
  push_cast
  field_simp
  ring_nf

lemma cardFloor_eq (s : HyperBitBit) :
    cardFloor s = ⌊(2 : ℝ) ^ ((expNum s : ℝ) / 160)⌋₊ := by
  unfold cardFloor
  rw [exponent_eq]

lemma rpow_div_pow (e : Nat) :
    ((2 : ℝ) ^ ((e : ℝ) / 160)) ^ (160 : ℕ) = (2 : ℝ) ^ (e : ℕ) := by
  have hmul : ((e : ℝ) / 160) * ((160 : ℕ) : ℝ) = ((e : ℕ) : ℝ) := by
    push_cast
    field_simp
  rw [← Real.rpow_natCast ((2 : ℝ) ^ ((e : ℝ) / 160)) 160,
    ← Real.rpow_mul (by norm_num : (0 : ℝ) ≤ 2), hmul, Real.rpow_natCast]

lemma floor_rpow_div_eq {e n : Nat} (h1 : n ^ 160 ≤ 2 ^ e) (h2 : 2 ^ e < (n + 1) ^ 160) :
    ⌊(2 : ℝ) ^ ((e : ℝ) / 160)⌋₊ = n := by
  have hxpos : (0 : ℝ) < (2 : ℝ) ^ ((e : ℝ) / 160) :=
    Real.rpow_pos_of_pos (by norm_num) _
  have hxpow : ((2 : ℝ) ^ ((e : ℝ) / 160)) ^ (160 : ℕ) = (2 : ℝ) ^ (e : ℕ) :=
    rpow_div_pow e
  have h1r : ((n : ℝ)) ^ (160 : ℕ) ≤ (2 : ℝ) ^ (e : ℕ) := by exact_mod_cast h1
  have h2r : (2 : ℝ) ^ (e : ℕ) < ((n : ℝ) + 1) ^ (160 : ℕ) := by exact_mod_cast h2
  have hlow : (n : ℝ) ≤ (2 : ℝ) ^ ((e : ℝ) / 160) := by
    refine le_of_pow_le_pow_left₀ (by norm_num : (160 : ℕ) ≠ 0) hxpos.le ?_
    rw [hxpow]
    exact h1r
  have hhigh : (2 : ℝ) ^ ((e : ℝ) / 160) < (n : ℝ) + 1 := by
    refine lt_of_pow_lt_pow_left₀ 160 (add_nonneg (Nat.cast_nonneg n) zero_le_one) ?_
    rw [hxpow]
    exact h2r
  rw [Nat.floor_eq_iff hxpos.le]
  exact ⟨hlow, hhigh⟩

lemma floor_rpow_div_lt {e : Nat} (he : e < 10240) :
    ⌊(2 : ℝ) ^ ((e : ℝ) / 160)⌋₊ < 2 ^ 64 := by
  have hxpos : (0 : ℝ) < (2 : ℝ) ^ ((e : ℝ) / 160) :=
    Real.rpow_pos_of_pos (by norm_num) _
  rw [Nat.floor_lt hxpos.le]
  have hcast : ((2 ^ 64 : ℕ) : ℝ) = (2 : ℝ) ^ ((64 : ℕ) : ℝ) := by
    rw [Real.rpow_natCast]
    push_cast
    ring
  rw [hcast]
  apply (Real.rpow_lt_rpow_left_iff (by norm_num : (1 : ℝ) < 2)).mpr
  rw [div_lt_iff₀ (by norm_num : (0 : ℝ) < 160)]
  have her : (e : ℝ) < 10240 := by exact_mod_cast he
  norm_num
  linarith

lemma cardinality_eval {s : HyperBitBit} {n : Nat}
    (h1 : n ^ 160 ≤ 2 ^ expNum s) (h2 : 2 ^ expNum s < (n + 1) ^ 160)
    (h3 : n ≤ 2 ^ 64 - 1) :
    cardinality s = n := by
  unfold cardinality
  rw [cardFloor_eq, floor_rpow_div_eq h1 h2]
  exact min_eq_left h3

lemma cardFloor_lt_of_reachable {s : HyperBitBit} (hs : Reachable s) :
    cardFloor s < 2 ^ 64 := by
  obtain ⟨h58, _, hpc, _, _, htop⟩ := inv_of_reachable hs
  rw [cardFloor_eq]
  apply floor_rpow_div_lt
  unfold expNum
  by_cases hc : 58 ≤ s.lgn
  · rw [htop hc, popCount64_zero]
    omega
  · omega

lemma kOf_lt (h : Nat) : kOf h < 64 := by
  rw [kOf_eq]
  exact Nat.mod_lt _ (by norm_num)

lemma insertChecked_eq {s : HyperBitBit} {h : Nat} (hh : h < 2 ^ 64) (hs : Inv s) :
    insertChecked h s = some (insert h s) := by
  have h58 := hs.1
  have hclz : 6 ≤ leadingZeros64 (h >>> 6) := six_le_leadingZeros hh
  have hk : kOf h < 64 := kOf_lt h
  have hmod : (s.lgn + 1) % 256 = s.lgn + 1 := Nat.mod_eq_of_lt (by omega)
  have hs1 : (setBits h s).sketch1 =
      (if s.lgn < rOf h then s.sketch1 ||| (1 <<< kOf h) else s.sketch1) := rfl
  have hs2 : (setBits h s).sketch2 =
      (if s.lgn + 1 < rOf h then s.sketch2 ||| (1 <<< kOf h) else s.sketch2) := by
    rw [setBits_sketch2, hmod]
  unfold insertChecked
  rw [if_neg (by omega), if_neg (by omega), if_neg (by omega)]
  by_cases hro : 31 < popCount64 (setBits h s).sketch1
  · have hro' := hro
    rw [hs1] at hro'
    rw [if_pos hro']
    unfold insert
    rw [rescale_of_gt hro, setBits_lgn, hmod, hs2]
  · have hro' := hro
    rw [hs1] at hro'
    rw [if_neg hro']
    unfold insert
    rw [rescale_of_le (by omega)]
    exact congrArg some (ext_fields rfl hs1.symm hs2.symm)

lemma lgn_mono {s : HyperBitBit} (hs : Inv s) (h : Nat) :
    s.lgn ≤ (insert h s).lgn := by
  have h58 := hs.1
  have hmod : (s.lgn + 1) % 256 = s.lgn + 1 := Nat.mod_eq_of_lt (by omega)
  unfold insert
  by_cases hro : 31 < popCount64 (setBits h s).sketch1
  · rw [rescale_of_gt hro]
    show s.lgn ≤ ((setBits h s).lgn + 1) % 256
    rw [setBits_lgn, hmod]
    omega
  · rw [rescale_of_le (by omega), setBits_lgn]

lemma setBits_setBits (h : Nat) (s : HyperBitBit) :
    setBits h (setBits h s) = setBits h s := by
  apply ext_fields
  · rfl
  · rw [setBits_sketch1 h (setBits h s), setBits_lgn, setBits_sketch1 h s]
    by_cases hc : s.lgn < rOf h
    · simp only [if_pos hc, or_or_self]
    · simp only [if_neg hc]
  · rw [setBits_sketch2 h (setBits h s), setBits_lgn, setBits_sketch2 h s]
    by_cases hc : (s.lgn + 1) % 256 < rOf h
    · simp only [if_pos hc, or_or_self]
    · simp only [if_neg hc]

lemma insert_new_of_rank_le {h : Nat} (hr : rOf h ≤ 5) : insert h new = new := by
  have hlgn : new.lgn = 5 := rfl
  have hsb : setBits h new = new := by
    apply ext_fields
    · rfl
    · rw [setBits_sketch1, if_neg (by omega)]
    · rw [setBits_sketch2, if_neg (by rw [hlgn]; omega)]
  unfold insert
  rw [hsb]
  apply rescale_of_le
  have : new.sketch1 = 0 := rfl
  rw [this, popCount64_zero]
  omega

lemma cardinality_new_eq : cardinality new = 1351 := by
  have he : expNum new = 1664 := rfl
  refine cardinality_eval ?_ ?_ ?_
  · rw [he]
    norm_num
  · rw [he]
    norm_num
  · norm_num

lemma cardinality_one_bit :
    cardinality { lgn := 5, sketch1 := 1, sketch2 := 1 } = 1380 := by
  have he : expNum { lgn := 5, sketch1 := 1, sketch2 := 1 } = 1669 := rfl
  refine cardinality_eval ?_ ?_ ?_
  · rw [he]
    norm_num
  · rw [he]
    norm_num
  · norm_num

lemma hashLen_admissible : Admissible hashLen := by
  intro v
  unfold hashLen
  have : v.length % 64 < 64 := Nat.mod_lt _ (by norm_num)
  omega

lemma hashAB_admissible : Admissible hashAB := by
  intro v
  unfold hashAB
  split <;> norm_num

set_option maxRecDepth 100000 in
/-- C1 (counterexample): the claim `popcount(sketch1) ≤ 31 after every insert`
fails.  Under the admissible hash `v ↦ v.length % 64`, inserting the 32
pairwise distinct strings `aStr 0, …, aStr 31` (lengths 0–31) into a fresh
sketch makes the 32nd insert rescale with a full `sketch2`, so that call
returns with `popcount(sketch1) = 32`. -/
theorem claim1_counterexample :
    Admissible hashLen ∧
    popCount64 (reachStr hashLen ((List.range 32).map aStr)).sketch1 = 32 :=
  ⟨hashLen_admissible, by decide⟩

/-- C1 (amended): for every state reachable from a freshly constructed sketch
by any sequence of `insert` calls under an admissible hash collaborator, the
population count of `sketch1` is at most 32 after each insert returns (31 can
be exceeded, but only by exactly one, in a call whose rescale installs a full
`sketch2`). -/
theorem claim1_amended (f : String → Nat) (hf : Admissible f) (l : List String) :
    popCount64 (reachStr f l).sketch1 ≤ 32 :=
  (inv_of_reachable (reachable_reachStr hf l)).2.2.1

theorem claim1_witness :
    popCount64 (reachStr (fun _ => 0) ["x"]).sketch1 ≤ 32 :=
  claim1_amended (fun _ => 0) (fun _ => by norm_num) ["x"]

set_option maxRecDepth 100000 in
/-- C2 (counterexample): inserting the same string twice is not always the
same as inserting it once.  Under `hashLen`, after the 31 distinct strings
`aStr 0, …, aStr 30`, the insert of `aStr 31` triggers a rescale; inserting
`aStr 31` a second time then records a bit into the freshly cleared `sketch2`
and rescales again, so the two states differ. -/
theorem claim2_counterexample :
    Admissible hashLen ∧
    insertStr hashLen (aStr 31)
        (insertStr hashLen (aStr 31) (reachStr hashLen ((List.range 31).map aStr))) ≠
      insertStr hashLen (aStr 31) (reachStr hashLen ((List.range 31).map aStr)) :=
  ⟨hashLen_admissible, by decide⟩

/-- C2 (amended): inserting the same string `v` twice in a row produces
exactly the same state as inserting it once, provided the first insertion
does not trigger a rescale (that is, the population count of `sketch1` after
the bit-setting steps is at most 31); the bit-set operations themselves are
idempotent. -/
theorem claim2_amended (f : String → Nat) (v : String) (s : HyperBitBit)
    (hnr : popCount64 (setBits (f v) s).sketch1 ≤ 31) :
    insertStr f v (insertStr f v s) = insertStr f v s := by
  have h1 : insert (f v) s = setBits (f v) s := by
    unfold insert
    exact rescale_of_le hnr
  unfold insertStr
  rw [h1]
  show rescale (setBits (f v) (setBits (f v) s)) = setBits (f v) s
  rw [setBits_setBits]
  exact rescale_of_le hnr

theorem claim2_witness :
    popCount64 (setBits ((fun _ => 0) "") new).sketch1 ≤ 31 ∧
    insertStr (fun _ => 0) "" (insertStr (fun _ => 0) "" new) =
      insertStr (fun _ => 0) "" new :=
  ⟨by decide, claim2_amended (fun _ => 0) "" new (by decide)⟩

/-- C3: in `insert`, after the two conditional bit-setting steps, if the
population count of `sketch1` exceeds 31, the call replaces `sketch1` with
the current `sketch2`, resets `sketch2` to 0 and increments `lgn` by exactly
one; otherwise the state is exactly the intermediate state, and in particular
`lgn` is unchanged.  (Reachability supplies `lgn ≤ 58`, so the `u8` increment
is an exact `+ 1`.) -/
theorem claim3 (s : HyperBitBit) (h : Nat) (hs : Reachable s) (_hh : h < 2 ^ 64) :
    (31 < popCount64 (setBits h s).sketch1 →
      insert h s =
        { lgn := s.lgn + 1, sketch1 := (setBits h s).sketch2, sketch2 := 0 }) ∧
    (popCount64 (setBits h s).sketch1 ≤ 31 →
      insert h s = setBits h s ∧ (insert h s).lgn = s.lgn) := by
  have h58 := (inv_of_reachable hs).1
  constructor
  · intro hgt
    show rescale (setBits h s) = _
    rw [rescale_of_gt hgt, setBits_lgn, Nat.mod_eq_of_lt (by omega : s.lgn + 1 < 256)]
  · intro hle
    have he : insert h s = setBits h s := rescale_of_le hle
    exact ⟨he, by rw [he, setBits_lgn]⟩

theorem claim3_witness :
    insert 0 new = setBits 0 new ∧ (insert 0 new).lgn = new.lgn :=
  (claim3 new 0 reachable_new (by norm_num)).2 (by decide)

/-- C4: for a freshly constructed sketch (`lgn = 5`, `sketch1 = 0`,
`sketch2 = 0`), `cardinality()` returns exactly 1351
(`⌊2 ^ (5 + 5.4 + 0/32)⌋ = ⌊2 ^ 10.4⌋ = 1351`). -/
theorem claim4 : cardinality new = 1351 := cardinality_new_eq

/-- C5 (counterexample): the claim fails — inserting two distinct strings
into a fresh sketch does not always leave `cardinality()` at 1351.  Under the
admissible hash `hashAB`, `"a"` hashes to 0 (rank 58 > 5), so its insertion
sets a bit of `sketch1`, and the estimate becomes `⌊2 ^ (10.4 + 1/32)⌋ = 1380`. -/
theorem claim5_counterexample :
    Admissible hashAB ∧ ("a" : String) ≠ "b" ∧
    cardinality (insertStr hashAB "b" (insertStr hashAB "a" new)) ≠ 1351 := by
  refine ⟨hashAB_admissible, by decide, ?_⟩
  have hstate : insertStr hashAB "b" (insertStr hashAB "a" new) =
      { lgn := 5, sketch1 := 1, sketch2 := 1 } := by decide
  rw [hstate, cardinality_one_bit]
  norm_num

/-- C5 (amended): inserting two distinct strings into a freshly constructed
sketch leaves `cardinality()` unchanged at exactly 1351 provided neither
string's hash rank exceeds `lgn = 5` (so neither insertion records a bit);
without that proviso the estimate can change. -/
theorem claim5_amended (f : String → Nat) (_hf : Admissible f) (v1 v2 : String)
    (_hne : v1 ≠ v2) (hr1 : rOf (f v1) ≤ 5) (hr2 : rOf (f v2) ≤ 5) :
    cardinality (insertStr f v2 (insertStr f v1 new)) = 1351 := by
  unfold insertStr
  rw [insert_new_of_rank_le hr1, insert_new_of_rank_le hr2]
  exact cardinality_new_eq

theorem claim5_witness :
    ("x" : String) ≠ "y" ∧ rOf ((fun _ => 2 ^ 63) "x") ≤ 5 ∧
    cardinality (insertStr (fun _ => 2 ^ 63) "y"
      (insertStr (fun _ => 2 ^ 63) "x" new)) = 1351 :=
  ⟨by decide, by decide,
    claim5_amended (fun _ => 2 ^ 63) (fun _ => by norm_num) "x" "y"
      (by decide) (by decide) (by decide)⟩

/-- C6: across any sequence of `insert` calls under an admissible hash
collaborator, `lgn` never decreases: after each insert it is at least its
value before that insert. -/
theorem claim6 (f : String → Nat) (hf : Admissible f) (l : List String) (v : String) :
    (reachStr f l).lgn ≤ (insertStr f v (reachStr f l)).lgn :=
  lgn_mono (inv_of_reachable (reachable_reachStr hf l)) (f v)

theorem claim6_witness :
    (reachStr (fun _ => 0) []).lgn ≤
      (insertStr (fun _ => 0) "x" (reachStr (fun _ => 0) [])).lgn :=
  claim6 (fun _ => 0) (fun _ => by norm_num) [] "x"

/-- C7: in `insert`, bit `k` of `sketch1` is set exactly when the rank `r`
derived from the hash satisfies `r > lgn` (otherwise `sketch1` is unchanged),
and bit `k` of `sketch2` is set exactly when `r > lgn + 1` (otherwise
`sketch2` is unchanged), where `lgn` is the value at the start of the call
(reachability supplies `lgn ≤ 58`, so the `u8` sum `lgn + 1` is exact). -/
theorem claim7 (s : HyperBitBit) (h : Nat) (hs : Reachable s) (_hh : h < 2 ^ 64) :
    (setBits h s).sketch1 =
      (if s.lgn < rOf h then s.sketch1 ||| 2 ^ (h % 64) else s.sketch1) ∧
    (setBits h s).sketch2 =
      (if s.lgn + 1 < rOf h then s.sketch2 ||| 2 ^ (h % 64) else s.sketch2) := by
  have h58 := (inv_of_reachable hs).1
  have hmod : (s.lgn + 1) % 256 = s.lgn + 1 := Nat.mod_eq_of_lt (by omega)
  constructor
  · rw [setBits_sketch1, Nat.one_shiftLeft, kOf_eq]
  · rw [setBits_sketch2, hmod, Nat.one_shiftLeft, kOf_eq]

theorem claim7_witness :
    (setBits 0 new).sketch1 =
      (if new.lgn < rOf 0 then new.sketch1 ||| 2 ^ (0 % 64) else new.sketch1) ∧
    (setBits 0 new).sketch2 =
      (if new.lgn + 1 < rOf 0 then new.sketch2 ||| 2 ^ (0 % 64) else new.sketch2) :=
  claim7 new 0 reachable_new (by norm_num)

/-- C8: for every 64-bit hash value `h`, the bucket index
`k = (h << 58) >> 58` equals `h mod 64` (so `k < 64`), and the rank is the
number of leading zeros of `h >> 6` minus 6, where that leading-zero count is
at least 6 (so the `u32` subtraction cannot underflow and `r` is a
well-defined non-negative integer). -/
theorem claim8 (h : Nat) (hh : h < 2 ^ 64) :
    kOf h = h % 64 ∧ h % 64 < 64 ∧ 6 ≤ leadingZeros64 (h >>> 6) ∧
    rOf h = leadingZeros64 (h >>> 6) - 6 :=
  ⟨kOf_eq h, Nat.mod_lt _ (by norm_num), six_le_leadingZeros hh, rfl⟩

theorem claim8_witness :
    kOf 12345 = 12345 % 64 ∧ 12345 % 64 < 64 ∧
    6 ≤ leadingZeros64 (12345 >>> 6) ∧
    rOf 12345 = leadingZeros64 (12345 >>> 6) - 6 :=
  claim8 12345 (by norm_num)

/-- C9: no public operation fails in any reachable state.  `insert` run under
debug semantics (`insertChecked`, which returns `none` at each potential
panic: the `u32` underflow in `leading_zeros() - 6`, an out-of-range shift
`1 << k`, a `u8` overflow in `lgn + 1`) succeeds for every input string —
including the empty string — and agrees with the total function `insert`;
and `cardinality` is well defined: no saturation occurs in the `as u64` cast,
the result being a genuine 64-bit value (`< 2 ^ 64`). -/
theorem claim9 (f : String → Nat) (hf : Admissible f) (l : List String) (v : String) :
    insertChecked (f v) (reachStr f l) = some (insertStr f v (reachStr f l)) ∧
    cardinality (reachStr f l) = cardFloor (reachStr f l) ∧
    cardFloor (reachStr f l) < 2 ^ 64 := by
  have hre := reachable_reachStr hf l
  have hflt := cardFloor_lt_of_reachable hre
  refine ⟨insertChecked_eq (hf v) (inv_of_reachable hre), ?_, hflt⟩
  unfold cardinality
  exact min_eq_left (by omega)

theorem claim9_witness :
    insertChecked ((fun _ => 0) "") (reachStr (fun _ => 0) []) =
      some (insertStr (fun _ => 0) "" (reachStr (fun _ => 0) [])) ∧
    cardinality (reachStr (fun _ => 0) []) = cardFloor (reachStr (fun _ => 0) []) ∧
    cardFloor (reachStr (fun _ => 0) []) < 2 ^ 64 :=
  claim9 (fun _ => 0) (fun _ => by norm_num) [] ""

/-- C10: the rank never exceeds 58, every state reachable by `insert` calls
under an admissible hash collaborator has `lgn ≤ 59` (the invariant proved
here is in fact `lgn ≤ 58`), and consequently the `u8` sum `lgn + 1` inside
`insert` never overflows (it stays at most 255). -/
theorem claim10 (f : String → Nat) (hf : Admissible f) (l : List String) :
    (∀ h : Nat, h < 2 ^ 64 → rOf h ≤ 58) ∧
    (reachStr f l).lgn ≤ 59 ∧ (reachStr f l).lgn + 1 ≤ 255 := by
  have h58 := (inv_of_reachable (reachable_reachStr hf l)).1
  exact ⟨fun h _ => rOf_le h, by omega, by omega⟩

theorem claim10_witness :
    (∀ h : Nat, h < 2 ^ 64 → rOf h ≤ 58) ∧
    (reachStr (fun _ => 0) ["x"]).lgn ≤ 59 ∧
    (reachStr (fun _ => 0) ["x"]).lgn + 1 ≤ 255 :=
  claim10 (fun _ => 0) (fun _ => by norm_num) ["x"]

end HyperBitBit
